import Mathlib

/-!
Verification of the module/parameter-tree layer of jittor's high-level
scripting interface (`src/python/jittor/__init__.py`): the `Module` tree and
its `dfs` traversal with the derived operations (`modules`, `children`,
`parameters`, `eval`/`train`, `load_parameters`, `save`/`load`), the scoped
flag and log-capture contexts (`flag_scope`, `log_capture_scope`), the
process-exit hook (`ExitHooks` / `jittor_exit`) and the `flatten` shape
helper.

A `Module` is modelled by its ordered attribute dictionary (`__dict__`),
restricted to the attributes the traversal code inspects: tensor-valued
attributes (parameters, identified by a numeric identity standing for
Python's `id`) and `Module`-valued attributes (children), plus the optional
`is_train` flag.  The mutable per-parameter state that lives in the native
core (the `is_stop_grad` flag, the array payload, the name tag) is threaded
explicitly as state keyed by parameter identity.
-/

namespace Jittor

/-- Raw array payload of a parameter, as stored in a checkpoint (the value of
`p.data`; the native array representation is opaque at this layer). -/
abbrev Data := List Int

mutual
/-- Ordered attribute dictionary of a `Module` (`self.__dict__`), restricted
to the attributes the traversal code inspects: `var key id rest` is a
tensor-valued attribute (a parameter with identity `id`), `mod key m rest` a
`Module`-valued attribute (a child). -/
inductive Attrs where
  | nil : Attrs
  | var (key : String) (id : Nat) (rest : Attrs) : Attrs
  | mod (key : String) (m : Module) (rest : Attrs) : Attrs
deriving DecidableEq
/-- A node of the module tree: its optional `is_train` flag and its ordered
attribute dictionary. -/
inductive Module where
  | mk (isTrain : Option Bool) (attrs : Attrs) : Module
deriving DecidableEq
end

/-- Attribute dictionary of a node. -/
def Module.attrs : Module → Attrs
  | .mk _ a => a

/-- The `is_train` flag of a node (`none` when the attribute is absent). -/
def Module.isTrain : Module → Option Bool
  | .mk t _ => t

/-- Count of `Module`-valued attributes, as computed by the first loop of
`Module.dfs` (`n_children`). -/
def Attrs.nChildren : Attrs → Nat
  | .nil => 0
  | .var _ _ r => r.nChildren
  | .mod _ _ r => r.nChildren + 1

/-- Count of `Module`-valued attributes of a node. -/
def Module.nChildren (m : Module) : Nat := m.attrs.nChildren

mutual
/-- Embedding of `Module.dfs(self, parents, k, callback, callback_leave)`.
The stateful Python callbacks become state-threading functions: `enter`
returns the new state together with the result of the `ret == False` test
(`true` means the callback returned the stop sentinel `False`, upon which
`dfs` returns at once, skipping both the recursion into children and the
leave callback).  The loop `for k,v in self.__dict__.items()` rebinds the
variable `k` at every attribute, so the `k` passed to `callback_leave`
afterwards is the last attribute key when the dictionary is nonempty; this
rebinding is modelled by `Attrs.dfsItems` returning the final binding of `k`
alongside the state. -/
def Module.dfs {σ : Type} (enter : σ → List Module → Option String → Module → Nat → σ × Bool)
    (leave : Option (σ → List Module → Option String → Module → Nat → σ)) :
    Module → List Module → Option String → σ → σ
  | .mk t a, parents, k, s =>
    let n := Attrs.nChildren a
    let p := enter s parents k (.mk t a) n
    if p.2 then p.1
    else
      let q := Attrs.dfsItems enter leave (.mk t a) parents k a p.1
      match leave with
      | none => q.1
      | some f => f q.1 parents q.2 (.mk t a) n

/-- The attribute loop of `Module.dfs`: recurses into every `Module`-valued
attribute, passing `parents + [self]`, and threads the current binding of
the loop variable `k` (rebound at every attribute, of either kind). -/
def Attrs.dfsItems {σ : Type} (enter : σ → List Module → Option String → Module → Nat → σ × Bool)
    (leave : Option (σ → List Module → Option String → Module → Nat → σ))
    (self : Module) (parents : List Module) (k : Option String) :
    Attrs → σ → σ × Option String
  | .nil, s => (s, k)
  | .var key _ rest, s => Attrs.dfsItems enter leave self parents (some key) rest s
  | .mod key child rest, s =>
      let s1 := Module.dfs enter leave child (parents ++ [self]) (some key) s
      Attrs.dfsItems enter leave self parents (some key) rest s1
end

/-- Embedding of `Module.modules()`: collects every visited node via `dfs`
(the `isinstance(v, Module)` test always holds for visited nodes). -/
def Module.modules (m : Module) : List Module :=
  @Module.dfs (List Module) (fun s _ _ v _ => (s ++ [v], false)) none m [] none []

/-- Embedding of `Module.children()`: the callback appends `v` and returns
the stop sentinel `False` exactly when `len(parents) == 1`. -/
def Module.children (m : Module) : List Module :=
  @Module.dfs (List Module)
    (fun s parents _ v _ => if parents.length = 1 then (s ++ [v], true) else (s, false))
    none m [] none []

mutual
/-- Manual recursive walk over the tree (the specification's reference
traversal): the node itself followed by the walks of its `Module`-valued
attributes in declaration order. -/
def Module.modulesWalk : Module → List Module
  | .mk t a => .mk t a :: Attrs.modulesWalkA a
/-- Manual recursive walk over an attribute dictionary. -/
def Attrs.modulesWalkA : Attrs → List Module
  | .nil => []
  | .var _ _ r => Attrs.modulesWalkA r
  | .mod _ c r => Module.modulesWalk c ++ Attrs.modulesWalkA r
end

mutual
/-- Number of nodes visited by the manual recursive walk. -/
def Module.countNodes : Module → Nat
  | .mk _ a => 1 + Attrs.countNodesA a
/-- Number of nodes of the subtrees rooted at an attribute dictionary. -/
def Attrs.countNodesA : Attrs → Nat
  | .nil => 0
  | .var _ _ r => Attrs.countNodesA r
  | .mod _ c r => Module.countNodes c + Attrs.countNodesA r
end

mutual
theorem Module.dfs_modules_eq (m : Module) (parents : List Module) (k : Option String)
    (s : List Module) :
    @Module.dfs (List Module) (fun s _ _ v _ => (s ++ [v], false)) none m parents k s
      = s ++ Module.modulesWalk m := by
  match m with
  | .mk t a =>
    simp only [Module.dfs]
    rw [Attrs.dfsItems_modules_eq]
    simp [Module.modulesWalk]
theorem Attrs.dfsItems_modules_eq (a : Attrs) (self : Module) (parents : List Module)
    (k : Option String) (s : List Module) :
    (@Attrs.dfsItems (List Module) (fun s _ _ v _ => (s ++ [v], false)) none self parents k a s).1
      = s ++ Attrs.modulesWalkA a := by
  match a with
  | .nil => simp [Attrs.dfsItems, Attrs.modulesWalkA]
  | .var key i r =>
    simp only [Attrs.dfsItems]
    rw [Attrs.dfsItems_modules_eq]
    simp [Attrs.modulesWalkA]
  | .mod key c r =>
    simp only [Attrs.dfsItems]
    rw [Module.dfs_modules_eq]
    rw [Attrs.dfsItems_modules_eq]
    simp [Attrs.modulesWalkA]
end

theorem Module.modules_eq_walk (m : Module) : Module.modules m = Module.modulesWalk m := by
  simpa [Module.modules] using Module.dfs_modules_eq m [] none []

mutual
theorem Module.length_modulesWalk (m : Module) :
    (Module.modulesWalk m).length = Module.countNodes m := by
  match m with
  | .mk t a =>
    simp only [Module.modulesWalk, Module.countNodes, List.length_cons]
    rw [Attrs.length_modulesWalkA]
    omega
theorem Attrs.length_modulesWalkA (a : Attrs) :
    (Attrs.modulesWalkA a).length = Attrs.countNodesA a := by
  match a with
  | .nil => simp [Attrs.modulesWalkA, Attrs.countNodesA]
  | .var key i r =>
    simp only [Attrs.modulesWalkA, Attrs.countNodesA]
    exact Attrs.length_modulesWalkA r
  | .mod key c r =>
    simp only [Attrs.modulesWalkA, Attrs.countNodesA, List.length_append]
    rw [Module.length_modulesWalk, Attrs.length_modulesWalkA]
end

/-- Value of `str(k)` for a traversal key: the root call passes `k = None`,
and `str(None)` is the string "None"; a string key is its own `str`. -/
def strOfKey : Option String → String
  | none => "None"
  | some s => s

/-- State of the `parameters()` traversal: the shared `stack` list and the
collected parameters `ps`, each recorded as the name-component list
`stack[1:] + [k2]` (whose `"."`-join is the dotted name passed to
`p.name(...)`) together with the parameter identity. -/
structure PState where
  stack : List String
  ps : List (List String × Nat)
deriving DecidableEq

/-- Collection of the tensor-valued attributes of the visited node done by
the `parameters()` enter callback: every `Var`-valued attribute `k2` of the
node is appended, with name components `pre ++ [k2]` where `pre` is
`stack[1:]` after the push. -/
def Attrs.collectVars (pre : List String) : Attrs → List (List String × Nat)
  | .nil => []
  | .var k2 i r => (pre ++ [k2], i) :: Attrs.collectVars pre r
  | .mod _ _ r => Attrs.collectVars pre r

/-- Enter callback of `Module.parameters()`: pushes `str(k)` onto the stack,
then collects the node's tensor-valued attributes; never stops. -/
def paramsEnter (s : PState) (_ : List Module) (k : Option String) (v : Module) (_ : Nat) :
    PState × Bool :=
  (⟨s.stack ++ [strOfKey k],
    s.ps ++ Attrs.collectVars (s.stack ++ [strOfKey k]).tail v.attrs⟩, false)

/-- Leave callback of `Module.parameters()`: pops the stack. -/
def paramsLeave (s : PState) (_ : List Module) (_ : Option String) (_ : Module) (_ : Nat) :
    PState :=
  ⟨s.stack.dropLast, s.ps⟩

/-- Embedding of `Module.parameters()`: the `dfs` traversal with the
stack-pushing/collecting enter callback and the stack-popping leave
callback, started from `([], None)` with an empty stack. -/
def Module.parameters (m : Module) : List (List String × Nat) :=
  (@Module.dfs PState paramsEnter (some paramsLeave) m [] none ⟨[], []⟩).ps

mutual
/-- Structural characterization of the parameter listing: the node's own
tensor-valued attributes (with singleton name components) followed by the
children's parameters, each prefixed by the child's key. -/
def Module.paramsWalk : Module → List (List String × Nat)
  | .mk _ a => Attrs.ownVars a ++ Attrs.childParams a
/-- Own tensor-valued attributes of an attribute dictionary. -/
def Attrs.ownVars : Attrs → List (List String × Nat)
  | .nil => []
  | .var k i r => ([k], i) :: Attrs.ownVars r
  | .mod _ _ r => Attrs.ownVars r
/-- Parameters contributed by the `Module`-valued attributes, prefixed with
the child keys. -/
def Attrs.childParams : Attrs → List (List String × Nat)
  | .nil => []
  | .var _ _ r => Attrs.childParams r
  | .mod k c r =>
      (Module.paramsWalk c).map (fun pi => (k :: pi.1, pi.2)) ++ Attrs.childParams r
end

/-- Name-component lists are extended on the left when a subtree is viewed
from further up the tree. -/
def addPre (pre : List String) (pi : List String × Nat) : List String × Nat :=
  (pre ++ pi.1, pi.2)

/-- Final binding of the loop variable `k` after `for k,v in
self.__dict__.items()`: the last attribute key when the dictionary is
nonempty, the incoming binding otherwise. -/
def Attrs.lastKey : Attrs → Option String → Option String
  | .nil, k => k
  | .var key _ rest, _ => Attrs.lastKey rest (some key)
  | .mod key _ rest, _ => Attrs.lastKey rest (some key)

theorem Attrs.collectVars_eq (pre : List String) (a : Attrs) :
    Attrs.collectVars pre a = (Attrs.ownVars a).map (addPre pre) := by
  match a with
  | .nil => simp [Attrs.collectVars, Attrs.ownVars]
  | .var k i r =>
    rw [Attrs.collectVars, Attrs.ownVars, Attrs.collectVars_eq pre r]
    simp [addPre]
  | .mod k c r =>
    rw [Attrs.collectVars, Attrs.ownVars, Attrs.collectVars_eq pre r]

theorem tail_append_singleton {α : Type} (l : List α) (x : α) (h : l ≠ []) :
    (l ++ [x]).tail = l.tail ++ [x] := by
  cases l with
  | nil => simp at h
  | cons y ys => simp

theorem map_cons_key_addPre (l : List (List String × Nat)) (pre : List String) (key : String) :
    (l.map (fun pi => (key :: pi.1, pi.2))).map (addPre pre)
      = l.map (addPre (pre ++ [key])) := by
  induction l with
  | nil => simp
  | cons p r ih => simp [addPre, ih]

mutual
theorem Module.dfs_params_eq (m : Module) (parents : List Module) (k : Option String)
    (s : PState) :
    @Module.dfs PState paramsEnter (some paramsLeave) m parents k s
      = ⟨s.stack, s.ps ++ (Module.paramsWalk m).map (addPre ((s.stack ++ [strOfKey k]).tail))⟩ := by
  match m with
  | .mk t a =>
    simp only [Module.dfs, paramsEnter]
    rw [Attrs.dfsItems_params_eq a (.mk t a) parents k
      ⟨s.stack ++ [strOfKey k],
        s.ps ++ Attrs.collectVars (s.stack ++ [strOfKey k]).tail (Module.attrs (.mk t a))⟩
      (by simp)]
    simp only [paramsLeave, Module.paramsWalk, Module.attrs]
    refine congrArg₂ PState.mk ?_ ?_
    · simp
    · rw [Attrs.collectVars_eq]
      simp [List.append_assoc]
theorem Attrs.dfsItems_params_eq (a : Attrs) (self : Module) (parents : List Module)
    (k : Option String) (s : PState) (hs : s.stack ≠ []) :
    @Attrs.dfsItems PState paramsEnter (some paramsLeave) self parents k a s
      = (⟨s.stack, s.ps ++ (Attrs.childParams a).map (addPre s.stack.tail)⟩,
          Attrs.lastKey a k) := by
  match a with
  | .nil => simp [Attrs.dfsItems, Attrs.childParams, Attrs.lastKey]
  | .var key i r =>
    simp only [Attrs.dfsItems]
    rw [Attrs.dfsItems_params_eq r self parents (some key) s hs]
    simp [Attrs.childParams, Attrs.lastKey]
  | .mod key c r =>
    simp only [Attrs.dfsItems]
    rw [Module.dfs_params_eq c (parents ++ [self]) (some key) s]
    rw [Attrs.dfsItems_params_eq r self parents (some key) _ (by simpa using hs)]
    simp only [Attrs.childParams, Attrs.lastKey, strOfKey]
    refine congrArg₂ Prod.mk ?_ rfl
    refine congrArg₂ PState.mk rfl ?_
    rw [tail_append_singleton s.stack key hs]
    rw [List.map_append, map_cons_key_addPre]
    simp [List.append_assoc]
end

theorem Module.parameters_eq_walk (m : Module) :
    Module.parameters m = Module.paramsWalk m := by
  simp only [Module.parameters]
  rw [Module.dfs_params_eq m [] none ⟨[], []⟩]
  have h : addPre [] = fun pi => pi := by
    funext pi
    simp [addPre]
  simp [h]

/-- Per-parameter `is_stop_grad` flag of the native core, keyed by parameter
identity (`id(p)`): `true` means gradient tracking is disabled. -/
abbrev GradState := Nat → Bool

/-- The `backup_grad_state` dictionary: parameter identity to whether the
parameter previously had gradient tracking enabled (`not p.is_stop_grad()`);
`none` means the identity is not a key of the dictionary. -/
abbrev Backup := Nat → Option Bool

mutual
/-- Effect on the tree of the `eval`/`train` dfs callback `v.is_train = b`,
applied to every visited node that has the attribute
(`hasattr(v, "is_train")`); nodes without the flag are left without it. -/
def Module.setTrain (b : Bool) : Module → Module
  | .mk t a => .mk (t.map (fun _ => b)) (Attrs.setTrainA b a)
/-- The `is_train` update applied below an attribute dictionary. -/
def Attrs.setTrainA (b : Bool) : Attrs → Attrs
  | .nil => .nil
  | .var k i r => .var k i (Attrs.setTrainA b r)
  | .mod k m r => .mod k (Module.setTrain b m) (Attrs.setTrainA b r)
end

/-- Parameter identities of the tree in `parameters()` order. -/
def Module.paramIds (m : Module) : List Nat := (Module.parameters m).map Prod.snd

/-- The backup loop of `Module.eval`: `for p in self.parameters()`, record
`not p.is_stop_grad()` under `id(p)` unless `id(p)` is already a key of
`backup_grad_state`, then `p.stop_grad()`. -/
def evalLoop : List Nat → GradState → Backup → GradState × Backup
  | [], σ, bk => (σ, bk)
  | p :: ps, σ, bk =>
      evalLoop ps (fun q => if q = p then true else σ q)
        (match bk p with
          | none => fun q => if q = p then some (!(σ p)) else bk q
          | some _ => bk)

/-- The restore loop of `Module.train`: `for p in self.parameters()`, when
`id(p)` is a key of `backup_grad_state` with value True, `p.start_grad()`
(gradient tracking re-enabled). -/
def trainLoop : List Nat → GradState → Backup → GradState
  | [], σ, _ => σ
  | p :: ps, σ, bk =>
      trainLoop ps (if bk p = some true then (fun q => if q = p then false else σ q) else σ) bk

/-- Embedding of `Module.eval()`: sets `is_train = False` on every node that
has the flag, creates `backup_grad_state` as an empty dictionary when the
attribute is absent, then backs up and disables gradient tracking for every
parameter.  Returns the updated tree, the backup dictionary (which now
exists) and the updated gradient state. -/
def Module.eval (m : Module) (backup : Option Backup) (σ : GradState) :
    Module × Backup × GradState :=
  let m' := Module.setTrain false m
  let r := evalLoop (Module.paramIds m') σ (backup.getD (fun _ => none))
  (m', r.2, r.1)

/-- Embedding of `Module.train()`: sets `is_train = True` on every node that
has the flag; when `backup_grad_state` exists, re-enables gradient tracking
for every parameter whose backup entry is True. -/
def Module.train (m : Module) (backup : Option Backup) (σ : GradState) :
    Module × GradState :=
  let m' := Module.setTrain true m
  match backup with
  | none => (m', σ)
  | some bk => (m', trainLoop (Module.paramIds m') σ bk)

mutual
theorem Module.paramsWalk_setTrain (b : Bool) (m : Module) :
    Module.paramsWalk (Module.setTrain b m) = Module.paramsWalk m := by
  match m with
  | .mk t a =>
    simp only [Module.setTrain, Module.paramsWalk]
    rw [Attrs.ownVars_setTrainA b a, Attrs.childParams_setTrainA b a]
theorem Attrs.ownVars_setTrainA (b : Bool) (a : Attrs) :
    Attrs.ownVars (Attrs.setTrainA b a) = Attrs.ownVars a := by
  match a with
  | .nil => rfl
  | .var k i r =>
    simp only [Attrs.setTrainA, Attrs.ownVars]
    rw [Attrs.ownVars_setTrainA b r]
  | .mod k c r =>
    simp only [Attrs.setTrainA, Attrs.ownVars]
    rw [Attrs.ownVars_setTrainA b r]
theorem Attrs.childParams_setTrainA (b : Bool) (a : Attrs) :
    Attrs.childParams (Attrs.setTrainA b a) = Attrs.childParams a := by
  match a with
  | .nil => rfl
  | .var k i r =>
    simp only [Attrs.setTrainA, Attrs.childParams]
    rw [Attrs.childParams_setTrainA b r]
  | .mod k c r =>
    simp only [Attrs.setTrainA, Attrs.childParams]
    rw [Module.paramsWalk_setTrain b c, Attrs.childParams_setTrainA b r]
end

theorem Module.paramIds_setTrain (b : Bool) (m : Module) :
    Module.paramIds (Module.setTrain b m) = Module.paramIds m := by
  simp only [Module.paramIds, Module.parameters_eq_walk]
  rw [Module.paramsWalk_setTrain]

theorem evalLoop_sigma : ∀ (ps : List Nat) (σ : GradState) (bk : Backup) (q : Nat),
    (evalLoop ps σ bk).1 q = if q ∈ ps then true else σ q
  | [], σ, bk, q => by simp [evalLoop]
  | p :: ps, σ, bk, q => by
    rw [evalLoop, evalLoop_sigma ps _ _ q]
    by_cases h1 : q ∈ ps
    · simp [h1]
    · by_cases h2 : q = p <;> simp [h1, h2, List.mem_cons]

theorem evalLoop_bk : ∀ (ps : List Nat) (σ : GradState) (bk : Backup) (q : Nat),
    (evalLoop ps σ bk).2 q
      = match bk q with
        | some b => some b
        | none => if q ∈ ps then some (!(σ q)) else none
  | [], σ, bk, q => by
    rcases hb : bk q with _ | b <;> simp [evalLoop, hb]
  | p :: ps, σ, bk, q => by
    rw [evalLoop, evalLoop_bk ps _ _ q]
    rcases hb : bk p with _ | b
    · by_cases h2 : q = p
      · subst h2
        simp [hb]
      · rcases hbq : bk q with _ | bq <;> simp [hb, h2, hbq, List.mem_cons]
    · rcases hbq : bk q with _ | bq
      · have h2 : ¬ q = p := by
          intro h
          rw [h, hb] at hbq
          exact Option.noConfusion hbq
        simp [hb, hbq, h2, List.mem_cons]
      · simp [hb, hbq]

theorem trainLoop_eq : ∀ (ps : List Nat) (σ : GradState) (bk : Backup) (q : Nat),
    trainLoop ps σ bk q = if q ∈ ps ∧ bk q = some true then false else σ q
  | [], σ, bk, q => by simp [trainLoop]
  | p :: ps, σ, bk, q => by
    rw [trainLoop, trainLoop_eq ps _ _ q]
    by_cases h1 : q ∈ ps ∧ bk q = some true
    · simp [h1]
    · by_cases h2 : q = p
      · subst h2
        rcases hb : bk q with _ | b
        · simp [h1, hb]
        · cases b <;> simp_all [List.mem_cons]
      · by_cases hb : bk p = some true <;> simp_all [List.mem_cons]

/-- C1: for every Module tree, calling `eval()` and then `train()` restores
each parameter's gradient-tracking flag to its exact value before `eval()`:
parameters with tracking enabled before `eval()` have it enabled again after
`train()`, and parameters with tracking disabled beforehand still have it
disabled.  The hypothesis states that any pre-existing `backup_grad_state`
entry agrees with `not p.is_stop_grad()` for the current flags — in
particular it holds vacuously when the attribute is absent, as before the
first `eval()` (the backup dictionary is created by `eval()` itself).  The
conclusion gives the restored `is_stop_grad` flag for an arbitrary
parameter identity `q`. -/
theorem eval_then_train_restores_grad (m : Module) (backup : Option Backup) (σ : GradState)
    (hcons : ∀ q b, (backup.getD (fun _ => none)) q = some b → b = !(σ q)) (q : Nat) :
    (Module.train (Module.eval m backup σ).1 (some (Module.eval m backup σ).2.1)
        (Module.eval m backup σ).2.2).2 q = σ q := by
  simp only [Module.eval, Module.train, Module.paramIds_setTrain]
  rw [trainLoop_eq, evalLoop_sigma, evalLoop_bk]
  set bk0 : Backup := backup.getD (fun _ => none) with hbk0
  by_cases hm : q ∈ Module.paramIds m
  · rcases hb : bk0 q with _ | b
    · cases hs : σ q <;> simp [hm, hb, hs]
    · have hbv : b = !(σ q) := hcons q b hb
      cases hs : σ q <;> simp [hm, hb, hbv, hs]
  · simp [hm]

/-- Witness for C1 at a concrete one-parameter tree with a fresh (absent)
backup dictionary and tracking enabled on the parameter. -/
theorem eval_then_train_restores_grad_witness :
    (Module.train
        (Module.eval (Module.mk none (.var "w" 0 .nil)) none (fun _ => false)).1
        (some (Module.eval (Module.mk none (.var "w" 0 .nil)) none (fun _ => false)).2.1)
        (Module.eval (Module.mk none (.var "w" 0 .nil)) none (fun _ => false)).2.2).2 0
      = false :=
  eval_then_train_restores_grad (Module.mk none (.var "w" 0 .nil)) none (fun _ => false)
    (by intro q b h; simp at h) 0

/-- C7: `modules()` returns a flat sequence equal to the manual recursive
walk over Module-valued attributes, containing every node of the tree
including the root, and its length equals the number of nodes visited by
the manual walk. -/
theorem modules_eq_manual_walk (m : Module) :
    Module.modules m = Module.modulesWalk m
      ∧ (Module.modules m).length = Module.countNodes m
      ∧ m ∈ Module.modules m := by
  refine ⟨Module.modules_eq_walk m, ?_, ?_⟩
  · rw [Module.modules_eq_walk, Module.length_modulesWalk]
  · rw [Module.modules_eq_walk]
    cases m with
    | mk t a => simp [Module.modulesWalk]

/-- Event record of one traversal callback invocation, with the argument
list `(parents, k, node, n_children)` the Python code passes. -/
inductive Ev where
  | enter (parents : List Module) (key : Option String) (node : Module) (n : Nat) : Ev
  | leave (parents : List Module) (key : Option String) (node : Module) (n : Nat) : Ev
deriving DecidableEq

/-- Traversal trace: `dfs` instrumented with callbacks recording their
invocations; `stopF` decides whether the enter callback returns the stop
sentinel `False` for the given arguments. -/
def dfsTrace (stopF : List Module → Option String → Module → Nat → Bool)
    (m : Module) (parents : List Module) (k : Option String) : List Ev :=
  @Module.dfs (List Ev)
    (fun s p k v n => (s ++ [.enter p k v n], stopF p k v n))
    (some (fun s p k v n => s ++ [.leave p k v n])) m parents k []

mutual
/-- Recursive description of the trace the instrumented `dfs` produces: an
enter event, then (unless stopped) the children's traces followed by one
leave event whose key is the final binding of the loop variable `k`. -/
def Module.traceWalk (stopF : List Module → Option String → Module → Nat → Bool) :
    Module → List Module → Option String → List Ev
  | .mk t a, parents, k =>
      if stopF parents k (.mk t a) (Attrs.nChildren a)
      then [.enter parents k (.mk t a) (Attrs.nChildren a)]
      else .enter parents k (.mk t a) (Attrs.nChildren a)
            :: (Attrs.traceWalkA stopF (.mk t a) parents a
                ++ [.leave parents (Attrs.lastKey a k) (.mk t a) (Attrs.nChildren a)])
/-- Trace contributed by the attribute loop. -/
def Attrs.traceWalkA (stopF : List Module → Option String → Module → Nat → Bool)
    (self : Module) (parents : List Module) : Attrs → List Ev
  | .nil => []
  | .var _ _ r => Attrs.traceWalkA stopF self parents r
  | .mod key c r =>
      Module.traceWalk stopF c (parents ++ [self]) (some key)
        ++ Attrs.traceWalkA stopF self parents r
end

mutual
theorem Module.dfs_trace_eq (stopF : List Module → Option String → Module → Nat → Bool)
    (m : Module) (parents : List Module) (k : Option String) (s : List Ev) :
    @Module.dfs (List Ev)
        (fun s p k v n => (s ++ [.enter p k v n], stopF p k v n))
        (some (fun s p k v n => s ++ [.leave p k v n])) m parents k s
      = s ++ Module.traceWalk stopF m parents k := by
  match m with
  | .mk t a =>
    simp only [Module.dfs, Module.traceWalk]
    by_cases hstop : stopF parents k (.mk t a) (Attrs.nChildren a)
    · simp [hstop]
    · simp only [hstop, if_false, Bool.false_eq_true]
      rw [Attrs.dfsItems_trace_eq stopF a (.mk t a) parents k _]
      simp
theorem Attrs.dfsItems_trace_eq (stopF : List Module → Option String → Module → Nat → Bool)
    (a : Attrs) (self : Module) (parents : List Module) (k : Option String) (s : List Ev) :
    @Attrs.dfsItems (List Ev)
        (fun s p k v n => (s ++ [.enter p k v n], stopF p k v n))
        (some (fun s p k v n => s ++ [.leave p k v n])) self parents k a s
      = (s ++ Attrs.traceWalkA stopF self parents a, Attrs.lastKey a k) := by
  match a with
  | .nil => simp [Attrs.dfsItems, Attrs.traceWalkA, Attrs.lastKey]
  | .var key i r =>
    simp only [Attrs.dfsItems, Attrs.traceWalkA, Attrs.lastKey]
    exact Attrs.dfsItems_trace_eq stopF r self parents (some key) s
  | .mod key c r =>
    simp only [Attrs.dfsItems, Attrs.traceWalkA, Attrs.lastKey]
    rw [Module.dfs_trace_eq stopF c (parents ++ [self]) (some key) s]
    rw [Attrs.dfsItems_trace_eq stopF r self parents (some key) _]
    simp
end

theorem dfsTrace_eq_walk (stopF : List Module → Option String → Module → Nat → Bool)
    (m : Module) (parents : List Module) (k : Option String) :
    dfsTrace stopF m parents k = Module.traceWalk stopF m parents k := by
  simpa [dfsTrace] using Module.dfs_trace_eq stopF m parents k []

/-- Test for a leave event. -/
def Ev.isLeave : Ev → Bool
  | .leave _ _ _ _ => true
  | .enter _ _ _ _ => false

/-- Test for an enter event whose callback did not return the stop
sentinel. -/
def Ev.isLiveEnter (stopF : List Module → Option String → Module → Nat → Bool) : Ev → Bool
  | .enter p k v n => !(stopF p k v n)
  | .leave _ _ _ _ => false

theorem Attrs.lastKey_fix (a : Attrs) (k : Option String) :
    Attrs.lastKey a (Attrs.lastKey a k) = Attrs.lastKey a k := by
  cases a <;> simp [Attrs.lastKey]

mutual
theorem Module.traceWalk_count (stopF : List Module → Option String → Module → Nat → Bool)
    (m : Module) (parents : List Module) (k : Option String) :
    (Module.traceWalk stopF m parents k).countP Ev.isLeave
      = (Module.traceWalk stopF m parents k).countP (Ev.isLiveEnter stopF) := by
  match m with
  | .mk t a =>
    simp only [Module.traceWalk]
    by_cases hstop : stopF parents k (.mk t a) (Attrs.nChildren a)
    · simp [hstop, List.countP_cons, Ev.isLeave, Ev.isLiveEnter]
    · simp only [hstop, if_false, Bool.false_eq_true, List.countP_cons, List.countP_append]
      rw [Attrs.traceWalkA_count stopF a (.mk t a) parents]
      simp [Ev.isLeave, Ev.isLiveEnter, hstop]
theorem Attrs.traceWalkA_count (stopF : List Module → Option String → Module → Nat → Bool)
    (a : Attrs) (self : Module) (parents : List Module) :
    (Attrs.traceWalkA stopF self parents a).countP Ev.isLeave
      = (Attrs.traceWalkA stopF self parents a).countP (Ev.isLiveEnter stopF) := by
  match a with
  | .nil => simp [Attrs.traceWalkA]
  | .var key i r =>
    simp only [Attrs.traceWalkA]
    exact Attrs.traceWalkA_count stopF r self parents
  | .mod key c r =>
    simp only [Attrs.traceWalkA, List.countP_append]
    rw [Module.traceWalk_count stopF c (parents ++ [self]) (some key)]
    rw [Attrs.traceWalkA_count stopF r self parents]
end

mutual
theorem Module.traceWalk_leave_shape (stopF : List Module → Option String → Module → Nat → Bool)
    (m : Module) (parents : List Module) (k : Option String) :
    ∀ p kk v n, Ev.leave p kk v n ∈ Module.traceWalk stopF m parents k →
      n = Module.nChildren v ∧ kk = Attrs.lastKey v.attrs kk := by
  match m with
  | .mk t a =>
    intro p kk v n hmem
    simp only [Module.traceWalk] at hmem
    by_cases hstop : stopF parents k (.mk t a) (Attrs.nChildren a)
    · simp [hstop] at hmem
    · simp only [hstop, if_false, Bool.false_eq_true, List.mem_cons, List.mem_append,
        List.mem_singleton] at hmem
      rcases hmem with h | h | h | h
      · exact absurd h (by simp)
      · exact Attrs.traceWalkA_leave_shape stopF a (.mk t a) parents p kk v n h
      · injection h with h1 h2 h3 h4
        subst h1
        subst h2
        subst h3
        subst h4
        refine ⟨rfl, ?_⟩
        simp only [Module.attrs]
        exact (Attrs.lastKey_fix a k).symm
      · simp at h
theorem Attrs.traceWalkA_leave_shape (stopF : List Module → Option String → Module → Nat → Bool)
    (a : Attrs) (self : Module) (parents : List Module) :
    ∀ p kk v n, Ev.leave p kk v n ∈ Attrs.traceWalkA stopF self parents a →
      n = Module.nChildren v ∧ kk = Attrs.lastKey v.attrs kk := by
  match a with
  | .nil => intro p kk v n hmem; simp [Attrs.traceWalkA] at hmem
  | .var key i r =>
    intro p kk v n hmem
    exact Attrs.traceWalkA_leave_shape stopF r self parents p kk v n hmem
  | .mod key c r =>
    intro p kk v n hmem
    simp only [Attrs.traceWalkA, List.mem_append] at hmem
    rcases hmem with h | h
    · exact Module.traceWalk_leave_shape stopF c (parents ++ [self]) (some key) p kk v n h
    · exact Attrs.traceWalkA_leave_shape stopF r self parents p kk v n h
end

/-- C3 (amended): in the `dfs` traversal, an enter callback returning the
stop sentinel skips both the descendant traversal of that node and that
node's leave callback; for every node whose enter callback did not stop,
the leave callback is invoked once, after the node's children are processed
(the trace equals the recursive walk `traceWalk`, whose per-node segment
places the single leave event after the children's events), with the
correct `n_children`, but its `key` argument is the final binding of the
attribute loop variable: the node's last attribute key whenever the node
has any attribute, rather than the node's own key. -/
theorem dfs_stop_and_leave_behavior (stopF : List Module → Option String → Module → Nat → Bool)
    (m : Module) :
    dfsTrace stopF m [] none = Module.traceWalk stopF m [] none
    ∧ (dfsTrace stopF m [] none).countP Ev.isLeave
        = (dfsTrace stopF m [] none).countP (Ev.isLiveEnter stopF)
    ∧ (∀ p kk v n, Ev.leave p kk v n ∈ dfsTrace stopF m [] none →
        n = Module.nChildren v ∧ kk = Attrs.lastKey v.attrs kk) := by
  refine ⟨dfsTrace_eq_walk stopF m [] none, ?_, ?_⟩
  · rw [dfsTrace_eq_walk]
    exact Module.traceWalk_count stopF m [] none
  · rw [dfsTrace_eq_walk]
    exact Module.traceWalk_leave_shape stopF m [] none

/-- Witness for C3 (amended) at a concrete two-node tree with a never-stop
callback: the instrumented traversal trace equals the recursive walk. -/
theorem dfs_stop_and_leave_behavior_witness :
    dfsTrace (fun _ _ _ _ => false)
        (Module.mk none (.mod "a" (Module.mk none (.var "w" 7 .nil)) .nil)) [] none
      = Module.traceWalk (fun _ _ _ _ => false)
        (Module.mk none (.mod "a" (Module.mk none (.var "w" 7 .nil)) .nil)) [] none :=
  (dfs_stop_and_leave_behavior (fun _ _ _ _ => false)
    (Module.mk none (.mod "a" (Module.mk none (.var "w" 7 .nil)) .nil))).1

/-- Counterexample for C3 as stated.  Tree: a root whose single attribute
"a" is a child module, which in turn has a single tensor attribute "w".
With a never-stopping callback, the child's leave callback receives key "w"
(the loop variable leaked from the child's attribute loop), not the child's
own key "a" that its enter callback received; with a callback that stops at
depth 1, the child is visited (its enter event occurs) but its leave
callback is never invoked, and the root's leave key is "a" rather than the
root's own key `None`. -/
theorem dfs_leave_claim_counterexample :
    (Ev.enter [Module.mk none (.mod "a" (Module.mk none (.var "w" 7 .nil)) .nil)] (some "a")
        (Module.mk none (.var "w" 7 .nil)) 0
      ∈ dfsTrace (fun _ _ _ _ => false)
          (Module.mk none (.mod "a" (Module.mk none (.var "w" 7 .nil)) .nil)) [] none)
    ∧ ¬ (Ev.leave [Module.mk none (.mod "a" (Module.mk none (.var "w" 7 .nil)) .nil)] (some "a")
        (Module.mk none (.var "w" 7 .nil)) 0
      ∈ dfsTrace (fun _ _ _ _ => false)
          (Module.mk none (.mod "a" (Module.mk none (.var "w" 7 .nil)) .nil)) [] none)
    ∧ (Ev.leave [Module.mk none (.mod "a" (Module.mk none (.var "w" 7 .nil)) .nil)] (some "w")
        (Module.mk none (.var "w" 7 .nil)) 0
      ∈ dfsTrace (fun _ _ _ _ => false)
          (Module.mk none (.mod "a" (Module.mk none (.var "w" 7 .nil)) .nil)) [] none)
    ∧ (dfsTrace (fun p _ _ _ => p.length == 1)
          (Module.mk none (.mod "a" (Module.mk none (.var "w" 7 .nil)) .nil)) [] none
        = [Ev.enter [] none
              (Module.mk none (.mod "a" (Module.mk none (.var "w" 7 .nil)) .nil)) 1,
           Ev.enter [Module.mk none (.mod "a" (Module.mk none (.var "w" 7 .nil)) .nil)]
              (some "a") (Module.mk none (.var "w" 7 .nil)) 0,
           Ev.leave [] (some "a")
              (Module.mk none (.mod "a" (Module.mk none (.var "w" 7 .nil)) .nil)) 1]) := by
  refine ⟨by decide, by decide, by decide, by decide⟩

/-- A value reached while walking the object graph in `load_parameters`:
either a module node or a tensor (parameter), the two attribute kinds the
tree represents. -/
inductive PyVal where
  | mod (m : Module) : PyVal
  | var (id : Nat) : PyVal
deriving DecidableEq

/-- Embedding of `getattr(v, k)` over the represented data attributes
(`hasattr(v, k)` is its `isSome`); attribute keys of a Python `__dict__`
are unique, so the first match is the attribute. -/
def Attrs.getattr : Attrs → String → Option PyVal
  | .nil, _ => none
  | .var key i r, k => if k = key then some (.var i) else Attrs.getattr r k
  | .mod key c r, k => if k = key then some (.mod c) else Attrs.getattr r k

/-- The resolution loop of `load_parameters`: `v = self`, then for each
component `k` of `key.split('.')`, `v = getattr(v, k)` when `hasattr(v, k)`
holds, otherwise the key fails (`end = 1`, `none` here).  A component
applied to a tensor fails (`hasattr` of a checkpoint path component on a
`Var` is false).  The `isinstance(v, nn.Sequential)` numeric-indexing
branch is outside this model: the modelled trees contain no sequence-typed
container, so that test is always false here. -/
def resolveKey : PyVal → List String → Option PyVal
  | v, [] => some v
  | .var _, _ :: _ => none
  | .mod m, k :: rest =>
      match Attrs.getattr m.attrs k with
      | none => none
      | some v => resolveKey v rest

/-- Character loop of Python's `key.split('.')`: accumulates the current
component (in reverse) and emits it at every dot and at the end. -/
def splitDotAux : List Char → List Char → List String
  | [], acc => [String.mk acc.reverse]
  | c :: cs, acc =>
      if c = '.' then String.mk acc.reverse :: splitDotAux cs []
      else splitDotAux cs (c :: acc)

/-- Embedding of `key.split('.')` (so `"a.b"` gives `["a", "b"]`, `""` gives
`[""]`, and consecutive dots give empty components, as in Python). -/
def splitDot (s : String) : List String := splitDotAux s.data []

/-- Embedding of `".".join(components)`. -/
def joinDot : List String → String
  | [] => ""
  | [s] => s
  | s :: rest => s ++ "." ++ joinDot rest

/-- Per-parameter array payload held by the native core, keyed by parameter
identity. -/
abbrev VarStore := Nat → Data

/-- Warning recorded for a key whose resolution failed. -/
def warnFailed (key : String) : String := "load parameter " ++ key ++ " failed ..."

/-- Verbose line recorded for a key whose resolution succeeded. -/
def logSuccess (key : String) : String := "load parameter " ++ key ++ " success ..."

/-- Summary warning emitted when at least one key failed. -/
def warnSummary (total n_failed : Nat) : String :=
  "load total " ++ toString total ++ " params, " ++ toString n_failed ++ " failed"

/-- The key loop of `load_parameters`.  A key that fails to resolve is
skipped, counted and warned about; a key that resolves to a tensor has the
stored value assigned to it (`v.assign(array(params[key]))`); a key that
resolves to a non-tensor reaches `v.assign` on an object with no such
attribute, so an `AttributeError` escapes (modelled by `.error`). -/
def loadParamsLoop (m : Module) : List (String × Data) → VarStore → Nat → List String →
    Except String (VarStore × Nat × List String)
  | [], store, n_failed, logs => .ok (store, n_failed, logs)
  | (key, d) :: rest, store, n_failed, logs =>
      match resolveKey (.mod m) (splitDot key) with
      | none => loadParamsLoop m rest store (n_failed + 1) (logs ++ [warnFailed key])
      | some (.var i) =>
          loadParamsLoop m rest (fun q => if q = i then d else store q) n_failed
            (logs ++ [logSuccess key])
      | some (.mod _) => .error "AttributeError"

/-- Embedding of `Module.load_parameters(params)`: runs the key loop and,
when `n_failed` is nonzero, appends the summary warning. -/
def Module.load_parameters (m : Module) (params : List (String × Data)) (store : VarStore) :
    Except String (VarStore × Nat × List String) :=
  match loadParamsLoop m params store 0 [] with
  | .error e => .error e
  | .ok (store', n_failed, logs) =>
      .ok (store', n_failed,
        if n_failed ≠ 0 then logs ++ [warnSummary params.length n_failed] else logs)

/-- Embedding of `Module.save(path)`: the pickled dictionary maps each
parameter's dotted name (`p.name()`, the `"."`-join of its traversal name
components) to its array payload (`p.data`), in `parameters()` order.  With
pairwise-distinct parameter identities, every `p.name()` read back in
`save` equals the name assigned at the parameter's sole traversal
occurrence, so the dictionary is this association list. -/
def Module.save (m : Module) (store : VarStore) : List (String × Data) :=
  (Module.parameters m).map (fun pi => (joinDot pi.1, store pi.2))

/-- Attribute keys of a node's dictionary, in declaration order. -/
def Attrs.keys : Attrs → List String
  | .nil => []
  | .var k _ r => k :: Attrs.keys r
  | .mod k _ r => k :: Attrs.keys r

mutual
/-- Well-formedness used for name resolution: every node's attribute keys
are pairwise distinct (guaranteed for a Python `__dict__`). -/
def Module.wfKeys : Module → Bool
  | .mk _ a => decide (Attrs.keys a).Nodup && Attrs.wfKeysA a
/-- Well-formedness of every module below an attribute dictionary. -/
def Attrs.wfKeysA : Attrs → Bool
  | .nil => true
  | .var _ _ r => Attrs.wfKeysA r
  | .mod _ c r => Module.wfKeys c && Attrs.wfKeysA r
end

theorem Attrs.getattr_mem_keys (a : Attrs) (k : String) (v : PyVal)
    (h : Attrs.getattr a k = some v) : k ∈ Attrs.keys a := by
  match a with
  | .nil => simp [Attrs.getattr] at h
  | .var key i r =>
    simp only [Attrs.getattr] at h
    by_cases hk : k = key
    · simp [Attrs.keys, hk]
    · simp only [hk, if_false] at h
      simp [Attrs.keys, Attrs.getattr_mem_keys r k v h]
  | .mod key c r =>
    simp only [Attrs.getattr] at h
    by_cases hk : k = key
    · simp [Attrs.keys, hk]
    · simp only [hk, if_false] at h
      simp [Attrs.keys, Attrs.getattr_mem_keys r k v h]

theorem Attrs.ownVars_resolve (a : Attrs) (hnd : (Attrs.keys a).Nodup) (p : List String)
    (i : Nat) (hmem : (p, i) ∈ Attrs.ownVars a) :
    ∃ k2, p = [k2] ∧ Attrs.getattr a k2 = some (.var i) := by
  match a with
  | .nil => simp [Attrs.ownVars] at hmem
  | .var key j r =>
    simp only [Attrs.keys, List.nodup_cons] at hnd
    simp only [Attrs.ownVars, List.mem_cons] at hmem
    rcases hmem with h | h
    · injection h with h1 h2
      exact ⟨key, h1, by simp [Attrs.getattr, h2]⟩
    · obtain ⟨k2, hp, hg⟩ := Attrs.ownVars_resolve r hnd.2 p i h
      have hk2 : k2 ∈ Attrs.keys r := Attrs.getattr_mem_keys r k2 _ hg
      have hne : ¬ k2 = key := fun hcontra => hnd.1 (hcontra ▸ hk2)
      exact ⟨k2, hp, by simp [Attrs.getattr, hne, hg]⟩
  | .mod key c r =>
    simp only [Attrs.keys, List.nodup_cons] at hnd
    simp only [Attrs.ownVars] at hmem
    obtain ⟨k2, hp, hg⟩ := Attrs.ownVars_resolve r hnd.2 p i hmem
    have hk2 : k2 ∈ Attrs.keys r := Attrs.getattr_mem_keys r k2 _ hg
    have hne : ¬ k2 = key := fun hcontra => hnd.1 (hcontra ▸ hk2)
    exact ⟨k2, hp, by simp [Attrs.getattr, hne, hg]⟩

mutual
theorem Module.paramsWalk_resolve (m : Module) (hwf : Module.wfKeys m = true)
    (p : List String) (i : Nat) (hmem : (p, i) ∈ Module.paramsWalk m) :
    resolveKey (.mod m) p = some (.var i) := by
  match m with
  | .mk t a =>
    simp only [Module.wfKeys, Bool.and_eq_true, decide_eq_true_eq] at hwf
    simp only [Module.paramsWalk, List.mem_append] at hmem
    rcases hmem with h | h
    · obtain ⟨k2, hp, hg⟩ := Attrs.ownVars_resolve a hwf.1 p i h
      rw [hp]
      simp [resolveKey, Module.attrs, hg]
    · obtain ⟨ck, rest, c, hp, hg, hr⟩ :=
        Attrs.childParams_resolve a hwf.1 hwf.2 p i h
      rw [hp]
      simp [resolveKey, Module.attrs, hg, hr]
theorem Attrs.childParams_resolve (a : Attrs) (hnd : (Attrs.keys a).Nodup)
    (hwa : Attrs.wfKeysA a = true) (p : List String) (i : Nat)
    (hmem : (p, i) ∈ Attrs.childParams a) :
    ∃ ck rest c, p = ck :: rest ∧ Attrs.getattr a ck = some (.mod c)
      ∧ resolveKey (.mod c) rest = some (.var i) := by
  match a with
  | .nil => simp [Attrs.childParams] at hmem
  | .var key j r =>
    simp only [Attrs.keys, List.nodup_cons] at hnd
    simp only [Attrs.wfKeysA] at hwa
    simp only [Attrs.childParams] at hmem
    obtain ⟨ck, rest, c, hp, hg, hr⟩ := Attrs.childParams_resolve r hnd.2 hwa p i hmem
    have hck : ck ∈ Attrs.keys r := Attrs.getattr_mem_keys r ck _ hg
    have hne : ¬ ck = key := fun hcontra => hnd.1 (hcontra ▸ hck)
    exact ⟨ck, rest, c, hp, by simp [Attrs.getattr, hne, hg], hr⟩
  | .mod key c0 r =>
    simp only [Attrs.keys, List.nodup_cons] at hnd
    simp only [Attrs.wfKeysA, Bool.and_eq_true] at hwa
    simp only [Attrs.childParams, List.mem_append, List.mem_map] at hmem
    rcases hmem with ⟨pi, hpi, heq⟩ | h
    · injection heq with h1 h2
      refine ⟨key, pi.1, c0, h1.symm, by simp [Attrs.getattr], ?_⟩
      rw [← h2]
      exact Module.paramsWalk_resolve c0 hwa.1 pi.1 pi.2 (by simpa using hpi)
    · obtain ⟨ck, rest, c, hp, hg, hr⟩ := Attrs.childParams_resolve r hnd.2 hwa.2 p i h
      have hck : ck ∈ Attrs.keys r := Attrs.getattr_mem_keys r ck _ hg
      have hne : ¬ ck = key := fun hcontra => hnd.1 (hcontra ▸ hck)
      exact ⟨ck, rest, c, hp, by simp [Attrs.getattr, hne, hg], hr⟩
end

/-- Test for a resolution result that is a module rather than a tensor (the
case in which `v.assign` raises an `AttributeError`). -/
def isModTarget : Option PyVal → Bool
  | some (.mod _) => true
  | some (.var _) => false
  | none => false

/-- Number of keys of a parameter mapping whose resolution fails. -/
def failCount (m : Module) (ps : List (String × Data)) : Nat :=
  (ps.filter (fun kd => (resolveKey (.mod m) (splitDot kd.1)).isNone)).length

theorem failCount_cons_none (m : Module) (kd : String × Data) (rest : List (String × Data))
    (hres : resolveKey (.mod m) (splitDot kd.1) = none) :
    failCount m (kd :: rest) = failCount m rest + 1 := by
  simp [failCount, List.filter_cons, hres]

theorem failCount_cons_some (m : Module) (kd : String × Data) (rest : List (String × Data))
    (pv : PyVal) (hres : resolveKey (.mod m) (splitDot kd.1) = some pv) :
    failCount m (kd :: rest) = failCount m rest := by
  simp [failCount, List.filter_cons, hres]

theorem loadParamsLoop_ok (m : Module) :
    ∀ (ps : List (String × Data)) (store : VarStore) (nf : Nat) (logs : List String),
    (∀ kd ∈ ps, isModTarget (resolveKey (.mod m) (splitDot kd.1)) = false) →
    ((ps.map Prod.fst).Nodup) →
    ∃ store' logs',
      loadParamsLoop m ps store nf logs = .ok (store', nf + failCount m ps, logs ++ logs')
      ∧ (∀ kd ∈ ps, resolveKey (.mod m) (splitDot kd.1) = none → warnFailed kd.1 ∈ logs')
      ∧ (∀ kd ∈ ps, ∀ i, resolveKey (.mod m) (splitDot kd.1) = some (.var i) →
          (∀ kd' ∈ ps, ¬ kd'.1 = kd.1 →
            resolveKey (.mod m) (splitDot kd'.1) ≠ some (.var i)) →
          store' i = kd.2)
      ∧ (∀ i, (∀ kd ∈ ps, resolveKey (.mod m) (splitDot kd.1) ≠ some (.var i)) →
          store' i = store i)
  | [], store, nf, logs, hno, hnd => by
    refine ⟨store, [], ?_, ?_, ?_, ?_⟩
    · simp [loadParamsLoop, failCount]
    · simp
    · simp
    · intro i h
      rfl
  | (key, d) :: rest, store, nf, logs, hno, hnd => by
    have hnd' : (rest.map Prod.fst).Nodup := (List.nodup_cons.mp hnd).2
    have hkey : key ∉ rest.map Prod.fst := (List.nodup_cons.mp hnd).1
    have hno' : ∀ kd ∈ rest, isModTarget (resolveKey (.mod m) (splitDot kd.1)) = false :=
      fun kd hkd => hno kd (List.mem_cons_of_mem _ hkd)
    rcases hres : resolveKey (.mod m) (splitDot key) with _ | pv
    · obtain ⟨store', logs'', heq, hwarn, hassign, hframe⟩ :=
        loadParamsLoop_ok m rest store (nf + 1) (logs ++ [warnFailed key]) hno' hnd'
      refine ⟨store', warnFailed key :: logs'', ?_, ?_, ?_, ?_⟩
      · rw [loadParamsLoop]
        simp only [hres]
        rw [heq]
        rw [failCount_cons_none m (key, d) rest hres]
        simp [List.append_assoc]
        omega
      · intro kd hkd hkdres
        rcases List.mem_cons.mp hkd with h | h
        · rw [h]
          exact List.mem_cons_self _ _
        · exact List.mem_cons_of_mem _ (hwarn kd h hkdres)
      · intro kd hkd i hkdres huniq
        rcases List.mem_cons.mp hkd with h | h
        · rw [h] at hkdres
          rw [hres] at hkdres
          exact absurd hkdres (by simp)
        · exact hassign kd h i hkdres
            (fun kd' hkd' hne => huniq kd' (List.mem_cons_of_mem _ hkd') hne)
      · intro i hnone
        exact hframe i (fun kd hkd => hnone kd (List.mem_cons_of_mem _ hkd))
    · rcases pv with c | i0
      · have hcontra := hno (key, d) (List.mem_cons_self _ _)
        rw [hres] at hcontra
        exact absurd hcontra (by simp [isModTarget])
      · obtain ⟨store', logs'', heq, hwarn, hassign, hframe⟩ :=
          loadParamsLoop_ok m rest (fun q => if q = i0 then d else store q) nf
            (logs ++ [logSuccess key]) hno' hnd'
        refine ⟨store', logSuccess key :: logs'', ?_, ?_, ?_, ?_⟩
        · rw [loadParamsLoop]
          simp only [hres]
          rw [heq]
          rw [failCount_cons_some m (key, d) rest (.var i0) hres]
          simp [List.append_assoc]
        · intro kd hkd hkdres
          rcases List.mem_cons.mp hkd with h | h
          · rw [h] at hkdres
            rw [hres] at hkdres
            exact absurd hkdres (by simp)
          · exact List.mem_cons_of_mem _ (hwarn kd h hkdres)
        · intro kd hkd i hkdres huniq
          rcases List.mem_cons.mp hkd with h | h
          · rw [h] at hkdres
            rw [hres] at hkdres
            have hi : i0 = i := by
              injection hkdres with hv
              injection hv
            subst hi
            have hrest : ∀ kd' ∈ rest, resolveKey (.mod m) (splitDot kd'.1)
                ≠ some (.var i0) := by
              intro kd' hkd'
              have hne : ¬ kd'.1 = (key, d).1 := by
                intro hcontra
                have hmm := List.mem_map_of_mem Prod.fst hkd'
                rw [hcontra] at hmm
                exact hkey hmm
              exact huniq kd' (List.mem_cons_of_mem _ hkd') (h ▸ hne)
            have := hframe i0 hrest
            rw [this]
            rw [h]
            simp
          · exact hassign kd h i hkdres
              (fun kd' hkd' hne => huniq kd' (List.mem_cons_of_mem _ hkd') hne)
        · intro i hnone
          have hne : ¬ i = i0 := by
            intro hcontra
            exact hnone (key, d) (List.mem_cons_self _ _) (by rw [hres, hcontra])
          rw [hframe i (fun kd hkd => hnone kd (List.mem_cons_of_mem _ hkd))]
          simp [hne]

/-- Counterexample for C2 as stated: a mapping whose single key resolves to
a child module (not a tensor) makes `load_parameters` reach
`v.assign(array(params[key]))` on a `Module`, which has no `assign`
attribute, so an `AttributeError` escapes instead of the call completing
with a warning. -/
theorem load_parameters_claim_counterexample :
    Module.load_parameters (Module.mk none (.mod "sub" (Module.mk none .nil) .nil))
        [("sub", [0])] (fun _ => []) = .error "AttributeError" := rfl

/-- C2 (amended): for every parameter mapping with pairwise-distinct keys in
which no key resolves to a module node, `load_parameters` completes without
raising: every key whose dotted path fails to resolve against the object
graph is skipped and a warning is recorded for it, the failure count is
returned and, when nonzero, a summary warning is emitted at the end, and
every key that resolves to a tensor (no other key resolving to the same
tensor) has its target assigned the stored value; tensors no key resolves
to keep their prior data.  (A key resolving to a module makes `v.assign`
raise `AttributeError` — see the counterexample — which is what the
amendment excludes.) -/
theorem load_parameters_tolerates_mismatches (m : Module) (params : List (String × Data))
    (store : VarStore)
    (hno : ∀ kd ∈ params, isModTarget (resolveKey (.mod m) (splitDot kd.1)) = false)
    (hnd : (params.map Prod.fst).Nodup) :
    ∃ store' logs,
      Module.load_parameters m params store = .ok (store', failCount m params, logs)
      ∧ (∀ kd ∈ params, resolveKey (.mod m) (splitDot kd.1) = none → warnFailed kd.1 ∈ logs)
      ∧ (failCount m params ≠ 0 → warnSummary params.length (failCount m params) ∈ logs)
      ∧ (∀ kd ∈ params, ∀ i, resolveKey (.mod m) (splitDot kd.1) = some (.var i) →
          (∀ kd' ∈ params, ¬ kd'.1 = kd.1 →
            resolveKey (.mod m) (splitDot kd'.1) ≠ some (.var i)) →
          store' i = kd.2)
      ∧ (∀ i, (∀ kd ∈ params, resolveKey (.mod m) (splitDot kd.1) ≠ some (.var i)) →
          store' i = store i) := by
  obtain ⟨store', logs', heq, hwarn, hassign, hframe⟩ :=
    loadParamsLoop_ok m params store 0 [] hno hnd
  refine ⟨store',
    (if failCount m params ≠ 0
      then logs' ++ [warnSummary params.length (failCount m params)] else logs'),
    ?_, ?_, ?_, hassign, hframe⟩
  · simp only [Module.load_parameters]
    rw [heq]
    simp
  · intro kd hkd hres
    by_cases hfc : failCount m params ≠ 0 <;> simp [hfc, hwarn kd hkd hres]
  · intro hfc
    simp [hfc]

/-- Witness for C2 (amended) at a mapping with one matching and one
non-existent key, as in the specification's test sketch. -/
theorem load_parameters_tolerates_mismatches_witness :
    ∃ store' logs,
      Module.load_parameters (Module.mk none (.var "w" 1 .nil))
          [("w", [5]), ("missing", [6])] (fun _ => [])
        = .ok (store',
            failCount (Module.mk none (.var "w" 1 .nil)) [("w", [5]), ("missing", [6])], logs)
      ∧ (∀ kd ∈ [(("w" : String), ([5] : Data)), ("missing", [6])],
          resolveKey (.mod (Module.mk none (.var "w" 1 .nil))) (splitDot kd.1) = none →
          warnFailed kd.1 ∈ logs)
      ∧ (failCount (Module.mk none (.var "w" 1 .nil)) [("w", [5]), ("missing", [6])] ≠ 0 →
          warnSummary 2
            (failCount (Module.mk none (.var "w" 1 .nil)) [("w", [5]), ("missing", [6])])
            ∈ logs)
      ∧ (∀ kd ∈ [(("w" : String), ([5] : Data)), ("missing", [6])], ∀ i,
          resolveKey (.mod (Module.mk none (.var "w" 1 .nil))) (splitDot kd.1)
            = some (.var i) →
          (∀ kd' ∈ [(("w" : String), ([5] : Data)), ("missing", [6])], ¬ kd'.1 = kd.1 →
            resolveKey (.mod (Module.mk none (.var "w" 1 .nil))) (splitDot kd'.1)
              ≠ some (.var i)) →
          store' i = kd.2)
      ∧ (∀ i, (∀ kd ∈ [(("w" : String), ([5] : Data)), ("missing", [6])],
          resolveKey (.mod (Module.mk none (.var "w" 1 .nil))) (splitDot kd.1)
            ≠ some (.var i)) →
          store' i = []) :=
  load_parameters_tolerates_mismatches (Module.mk none (.var "w" 1 .nil))
    [("w", [5]), ("missing", [6])] (fun _ => []) (by decide) (by decide)

/-- C5: saving a tree's parameters and loading the saved dictionary into a
structurally identical fresh tree (same tree shape, fresh data `store0`)
completes with zero failures and assigns to every matched parameter name
exactly the array data that was saved.  Hypotheses: per-node attribute keys
are distinct (a `__dict__` guarantee), parameter identities are distinct
(no parameter sharing, so each `p.name()` is the name set at its sole
traversal occurrence), dotted names are distinct, and each name-component
list survives the join/split round trip (keys contain no dot). -/
theorem save_load_roundtrip (m : Module) (store store0 : VarStore)
    (hwf : Module.wfKeys m = true)
    (hids : ((Module.parameters m).map Prod.snd).Nodup)
    (hnames : ((Module.parameters m).map (fun pi => joinDot pi.1)).Nodup)
    (hsplit : ∀ pi ∈ Module.parameters m, splitDot (joinDot pi.1) = pi.1) :
    ∃ store' logs,
      Module.load_parameters m (Module.save m store) store0 = .ok (store', 0, logs)
      ∧ ∀ pi ∈ Module.parameters m, store' pi.2 = store pi.2 := by
  have hres : ∀ pi ∈ Module.parameters m,
      resolveKey (.mod m) (splitDot (joinDot pi.1)) = some (.var pi.2) := by
    intro pi hpi
    rw [hsplit pi hpi]
    have hmem : (pi.1, pi.2) ∈ Module.paramsWalk m := by
      rw [← Module.parameters_eq_walk]
      simpa using hpi
    exact Module.paramsWalk_resolve m hwf pi.1 pi.2 hmem
  have hno : ∀ kd ∈ Module.save m store,
      isModTarget (resolveKey (.mod m) (splitDot kd.1)) = false := by
    intro kd hkd
    simp only [Module.save, List.mem_map] at hkd
    obtain ⟨pi, hpi, rfl⟩ := hkd
    rw [show (joinDot pi.1, store pi.2).1 = joinDot pi.1 from rfl, hres pi hpi]
    rfl
  have hnd : ((Module.save m store).map Prod.fst).Nodup := by
    simpa [Module.save, List.map_map, Function.comp] using hnames
  obtain ⟨store', logs', heq, hwarn, hassign, hframe⟩ :=
    loadParamsLoop_ok m (Module.save m store) store0 0 [] hno hnd
  have hfc : failCount m (Module.save m store) = 0 := by
    simp only [failCount, List.length_eq_zero]
    rw [List.filter_eq_nil_iff]
    intro kd hkd
    simp only [Module.save] at hkd
    obtain ⟨pi, hpi, rfl⟩ := List.mem_map.mp hkd
    simp [hres pi hpi]
  refine ⟨store', logs', ?_, ?_⟩
  · simp only [Module.load_parameters]
    rw [heq]
    simp [hfc]
  · intro pi hpi
    have hkd : (joinDot pi.1, store pi.2) ∈ Module.save m store := by
      simp only [Module.save, List.mem_map]
      exact ⟨pi, hpi, rfl⟩
    have happ := hassign (joinDot pi.1, store pi.2) hkd pi.2 (hres pi hpi) ?_
    · exact happ
    · intro kd' hkd' hne
      simp only [Module.save] at hkd'
      obtain ⟨pi', hpi', rfl⟩ := List.mem_map.mp hkd'
      rw [show (joinDot pi'.1, store pi'.2).1 = joinDot pi'.1 from rfl, hres pi' hpi']
      intro hcontra
      have h2 : pi'.2 = pi.2 := by
        injection hcontra with h
        injection h
      have hpp : pi' = pi := List.inj_on_of_nodup_map hids hpi' hpi h2
      exact hne (by rw [hpp])

/-- Witness for C5 at a two-parameter tree (one root tensor, one nested). -/
theorem save_load_roundtrip_witness :
    ∃ store' logs,
      Module.load_parameters
          (Module.mk none (.var "w" 1 (.mod "sub" (Module.mk none (.var "b" 2 .nil)) .nil)))
          (Module.save
            (Module.mk none (.var "w" 1 (.mod "sub" (Module.mk none (.var "b" 2 .nil)) .nil)))
            (fun i => [Int.ofNat i]))
          (fun _ => [])
        = .ok (store', 0, logs)
      ∧ ∀ pi ∈ Module.parameters
          (Module.mk none (.var "w" 1 (.mod "sub" (Module.mk none (.var "b" 2 .nil)) .nil))),
          store' pi.2 = (fun i => [Int.ofNat i]) pi.2 :=
  save_load_roundtrip
    (Module.mk none (.var "w" 1 (.mod "sub" (Module.mk none (.var "b" 2 .nil)) .nil)))
    (fun i => [Int.ofNat i]) (fun _ => []) (by decide) (by decide) (by decide) (by decide)

/-- Global engine flags object (`jt.flags`): flag name to current value
when the flag exists; `getattr` on a name the object does not have raises,
modelled by `none`.  Flag values are modelled as integers. -/
abbrev Flags := String → Option Int

/-- Embedding of `setattr(flags, k, v)` (only ever reached in `flag_scope`
for a name whose `getattr` succeeded). -/
def setFlag (f : Flags) (k : String) (v : Int) : Flags :=
  fun q => if q = k then some v else f q

/-- The loop of `flag_scope.__enter__`: for each override in order, save
the current value into `flags_bk` and apply the new one; when `getattr`
raises (unknown flag) the loop stops with `false` and the backup collected
so far (the `except` handler then calls `__exit__` and re-raises). -/
def flagEnterLoop : List (String × Int) → Flags → List (String × Int) →
    List (String × Int) × Flags × Bool
  | [], f, bk => (bk, f, true)
  | (k, v) :: rest, f, bk =>
      match f k with
      | none => (bk, f, false)
      | some old => flagEnterLoop rest (setFlag f k v) (bk ++ [(k, old)])

/-- Embedding of `flag_scope.__exit__` (identical on the normal and the
error path): restore every saved value, in insertion order. -/
def flagExit (bk : List (String × Int)) (f : Flags) : Flags :=
  bk.foldl (fun f kv => setFlag f kv.1 kv.2) f

/-- One full run of a `flag_scope`: enter; when entry succeeded the body
runs (an arbitrary transformation of the global flags — the same for a body
that returns normally and for one that raises, since `__exit__` runs on
both paths) and then `__exit__` restores the backup; when entry failed
partway, the `except` handler restores the collected backup before
re-raising (the body never runs).  Returns the final flags and whether
entry succeeded. -/
def flag_scope_run (jt_flags : List (String × Int)) (body : Flags → Flags) (f : Flags) :
    Flags × Bool :=
  match flagEnterLoop jt_flags f [] with
  | (bk, f1, true) => (flagExit bk (body f1), true)
  | (bk, f1, false) => (flagExit bk f1, false)

theorem flagExit_congr_at (bk : List (String × Int)) (X Y : Flags) (q : String)
    (h : X q = Y q) : flagExit bk X q = flagExit bk Y q := by
  induction bk generalizing X Y with
  | nil => exact h
  | cons p rest ih =>
    simp only [flagExit, List.foldl_cons] at ih ⊢
    apply ih
    simp only [setFlag]
    by_cases hq : q = p.1 <;> simp [hq, h]

theorem flagExit_append (a b : List (String × Int)) (f : Flags) :
    flagExit (a ++ b) f = flagExit b (flagExit a f) := by
  simp [flagExit, List.foldl_append]

theorem flagExit_cons (p : String × Int) (rest : List (String × Int)) (f : Flags) :
    flagExit (p :: rest) f = flagExit rest (setFlag f p.1 p.2) := by
  simp [flagExit]

theorem flagExit_not_mem (bk : List (String × Int)) (f : Flags) (k : String)
    (h : k ∉ bk.map Prod.fst) : flagExit bk f k = f k := by
  induction bk generalizing f with
  | nil => rfl
  | cons p rest ih =>
    simp only [List.map_cons, List.mem_cons] at h
    push_neg at h
    rw [flagExit_cons]
    rw [ih _ h.2]
    simp [setFlag, h.1]

theorem flagEnterLoop_bk_extends (jt : List (String × Int)) (f : Flags)
    (bk : List (String × Int)) :
    ∃ delta, (flagEnterLoop jt f bk).1 = bk ++ delta
      ∧ ∀ k ∈ delta.map Prod.fst, k ∈ jt.map Prod.fst := by
  induction jt generalizing f bk with
  | nil => exact ⟨[], by simp [flagEnterLoop]⟩
  | cons p rest ih =>
    rcases p with ⟨k0, v0⟩
    rcases hf : f k0 with _ | old
    · exact ⟨[], by simp [flagEnterLoop, hf]⟩
    · obtain ⟨delta, hd, hsub⟩ := ih (setFlag f k0 v0) (bk ++ [(k0, old)])
      refine ⟨(k0, old) :: delta, ?_, ?_⟩
      · simp only [flagEnterLoop, hf]
        rw [hd]
        simp
      · intro k hk
        simp only [List.map_cons, List.mem_cons] at hk ⊢
        rcases hk with h | h
        · exact Or.inl h
        · exact Or.inr (hsub k h)

theorem flagEnterLoop_restores (jt : List (String × Int)) (f : Flags)
    (bk : List (String × Int)) (hnd : (jt.map Prod.fst).Nodup)
    (hdisj : ∀ k ∈ jt.map Prod.fst, k ∉ bk.map Prod.fst) (q : String) :
    flagExit (flagEnterLoop jt f bk).1 (flagEnterLoop jt f bk).2.1 q = flagExit bk f q := by
  induction jt generalizing f bk with
  | nil => rfl
  | cons p rest ih =>
    rcases p with ⟨k0, v0⟩
    simp only [List.map_cons, List.nodup_cons] at hnd
    rcases hf : f k0 with _ | old
    · simp [flagEnterLoop, hf]
    · simp only [flagEnterLoop, hf]
      have hdisj' : ∀ k ∈ rest.map Prod.fst, k ∉ (bk ++ [(k0, old)]).map Prod.fst := by
        intro k hk
        simp only [List.map_append, List.mem_append, List.map_cons, List.map_nil,
          List.mem_singleton]
        push_neg
        refine ⟨hdisj k (by simp [hk]), ?_⟩
        intro hcontra
        rw [hcontra] at hk
        exact hnd.1 hk
      rw [ih (setFlag f k0 v0) (bk ++ [(k0, old)]) hnd.2 hdisj']
      rw [flagExit_append]
      by_cases hq : q = k0
      · subst hq
        have h1 : flagExit [(q, old)] (flagExit bk (setFlag f q v0)) q = some old := by
          simp [flagExit, setFlag]
        rw [h1, flagExit_not_mem bk f q (hdisj q (by simp))]
        exact hf.symm
      · have h1 : flagExit [(k0, old)] (flagExit bk (setFlag f k0 v0)) q
            = flagExit bk (setFlag f k0 v0) q := by
          simp [flagExit, setFlag, hq]
        rw [h1]
        exact flagExit_congr_at bk _ _ q (by simp [setFlag, hq])

theorem flagEnterLoop_saved (jt : List (String × Int)) (f : Flags)
    (bk : List (String × Int)) (hnd : (jt.map Prod.fst).Nodup)
    (hdisj : ∀ k ∈ jt.map Prod.fst, k ∉ bk.map Prod.fst)
    (hok : (flagEnterLoop jt f bk).2.2 = true) :
    ∀ k ∈ jt.map Prod.fst, ∀ X : Flags, flagExit (flagEnterLoop jt f bk).1 X k = f k := by
  induction jt generalizing f bk with
  | nil => intro k hk; simp at hk
  | cons p rest ih =>
    rcases p with ⟨k0, v0⟩
    simp only [List.map_cons, List.nodup_cons] at hnd
    intro k hk X
    rcases hf : f k0 with _ | old
    · rw [flagEnterLoop] at hok
      simp only [hf] at hok
      exact absurd hok (by simp)
    · rw [flagEnterLoop] at hok
      simp only [hf] at hok
      rw [flagEnterLoop]
      simp only [hf]
      simp only [List.map_cons, List.mem_cons] at hk
      have hdisj' : ∀ k1 ∈ rest.map Prod.fst, k1 ∉ (bk ++ [(k0, old)]).map Prod.fst := by
        intro k1 hk1
        simp only [List.map_append, List.mem_append, List.map_cons, List.map_nil,
          List.mem_singleton]
        push_neg
        refine ⟨hdisj k1 (by simp [hk1]), ?_⟩
        intro hcontra
        rw [hcontra] at hk1
        exact hnd.1 hk1
      rcases hk with h | h
      · subst h
        obtain ⟨delta, hd, hsub⟩ :=
          flagEnterLoop_bk_extends rest (setFlag f k v0) (bk ++ [(k, old)])
        rw [hd, flagExit_append]
        rw [flagExit_not_mem _ _ k (fun hcontra => hnd.1 (hsub k hcontra))]
        rw [flagExit_append]
        have h1 : flagExit [(k, old)] (flagExit bk X) k = some old := by
          simp [flagExit, setFlag]
        rw [h1]
        exact hf.symm
      · have hne : ¬ k = k0 := by
          intro hcontra
          rw [hcontra] at h
          exact hnd.1 h
        rw [ih (setFlag f k0 v0) (bk ++ [(k0, old)]) hnd.2 hdisj' hok k h X]
        simp [setFlag, hne]

/-- C4: `flag_scope` restores, per supplied override key, the prior saved
value of the flag when the scope exits, whatever the body did to the global
flags in between (the `__exit__` code is identical on the normal-return and
raised-error paths, which the arbitrary `body` transformation covers); and
when applying the overrides fails partway through entry (unknown flag), the
already-applied flags are restored to their saved values before the error
propagates — with identity body this makes the whole run the identity on
the flags. -/
theorem flag_scope_restores (jt_flags : List (String × Int)) (f : Flags)
    (hnd : (jt_flags.map Prod.fst).Nodup) :
    (∀ body : Flags → Flags, ∀ k ∈ jt_flags.map Prod.fst,
        (flag_scope_run jt_flags body f).1 k = f k)
    ∧ (∀ body : Flags → Flags, ∀ q,
        (flag_scope_run jt_flags body f).2 = false →
        (flag_scope_run jt_flags body f).1 q = f q)
    ∧ (∀ q, (flag_scope_run jt_flags (fun x => x) f).1 q = f q) := by
  have hdisj : ∀ k ∈ jt_flags.map Prod.fst, k ∉ ([] : List (String × Int)).map Prod.fst := by
    simp
  refine ⟨?_, ?_, ?_⟩
  · intro body k hk
    simp only [flag_scope_run]
    rcases hloop : flagEnterLoop jt_flags f [] with ⟨bk, f1, ok⟩
    cases ok
    · have := flagEnterLoop_restores jt_flags f [] hnd hdisj k
      rw [hloop] at this
      simpa [flagExit] using this
    · have := flagEnterLoop_saved jt_flags f [] hnd hdisj (by rw [hloop]) k hk (body f1)
      rw [hloop] at this
      exact this
  · intro body q hfail
    simp only [flag_scope_run] at hfail ⊢
    rcases hloop : flagEnterLoop jt_flags f [] with ⟨bk, f1, ok⟩
    rw [hloop] at hfail
    cases ok
    · have := flagEnterLoop_restores jt_flags f [] hnd hdisj q
      rw [hloop] at this
      simpa [flagExit] using this
    · simp at hfail
  · intro q
    simp only [flag_scope_run]
    rcases hloop : flagEnterLoop jt_flags f [] with ⟨bk, f1, ok⟩
    have := flagEnterLoop_restores jt_flags f [] hnd hdisj q
    rw [hloop] at this
    cases ok <;> simpa [flagExit] using this

/-- Witness for C4: a scope overriding two flags (with a body that itself
clobbers one of them) hands back the original value on exit. -/
theorem flag_scope_restores_witness :
    (flag_scope_run [("log_v", 5), ("lazy_execution", 0)]
        (fun g => setFlag g "log_v" 99)
        (fun q => if q = "log_v" then some 1 else if q = "lazy_execution" then some 2
          else none)).1 "log_v" = some 1 :=
  (flag_scope_restores [("log_v", 5), ("lazy_execution", 0)]
      (fun q => if q = "log_v" then some 1 else if q = "lazy_execution" then some 2 else none)
      (by decide)).1
    (fun g => setFlag g "log_v" 99) "log_v" (by decide)

/-- Process-level state touched by `log_capture_scope`: the module-level
guard `single_log_capture` (`false` models the initial None), the nesting
depth of log interception (`LOG.log_capture_start` increments,
`LOG.log_capture_stop` decrements) and the global flags. -/
structure LogSys where
  single : Bool
  captureDepth : Nat
  flags : Flags

/-- Embedding of `log_capture_scope.__enter__`: `assert not
single_log_capture` fails fast when a capture is already active — the
assertion error propagates with the process state unchanged, since nothing
after the assert runs.  Otherwise the guard is set, interception starts,
and the wrapped `flag_scope` is entered; when the flag application raises
(it restores the flags it touched itself), interception is stopped and the
guard cleared before the error propagates.  `.error` carries the process
state at the raise. -/
def log_capture_enter (jt_flags : List (String × Int)) (s : LogSys) : Except LogSys LogSys :=
  if s.single then .error s
  else
    match flagEnterLoop jt_flags s.flags [] with
    | (_, f1, true) => .ok ⟨true, s.captureDepth + 1, f1⟩
    | (bk, f1, false) => .error ⟨false, s.captureDepth, flagExit bk f1⟩

/-- C6: at most one `log_capture_scope` may be active in the process at a
time: a successful enter sets the module-level guard, and entering a second
scope while the guard is set fails fast with the assertion failure, leaving
the process state unchanged — in particular no second capture is started
(the capture depth does not change, `LOG.log_capture_start` sits after the
assert). -/
theorem log_capture_scope_single (jt1 jt2 : List (String × Int)) (s s' : LogSys)
    (h : log_capture_enter jt1 s = .ok s') :
    s'.single = true ∧ log_capture_enter jt2 s' = .error s' := by
  unfold log_capture_enter at h
  cases hs : s.single
  · rw [hs] at h
    simp only [Bool.false_eq_true, if_false] at h
    rcases hloop : flagEnterLoop jt1 s.flags [] with ⟨bk, f1, ok⟩
    rw [hloop] at h
    cases ok
    · exact absurd h (by simp)
    · have hs' : s' = ⟨true, s.captureDepth + 1, f1⟩ := by
        injection h with h1
        exact h1.symm
      subst hs'
      exact ⟨rfl, by simp [log_capture_enter]⟩
  · rw [hs] at h
    simp at h

/-- Witness for C6: a first capture scope enters successfully, and a second
enter attempt on the resulting state fails fast with that state intact. -/
theorem log_capture_scope_single_witness :
    (⟨true, 1, setFlag (fun q => if q = "log_v" then some 1 else none) "log_v" 0⟩
        : LogSys).single = true
    ∧ log_capture_enter [("log_v", 7)]
        ⟨true, 1, setFlag (fun q => if q = "log_v" then some 1 else none) "log_v" 0⟩
      = .error ⟨true, 1, setFlag (fun q => if q = "log_v" then some 1 else none) "log_v" 0⟩ :=
  log_capture_scope_single [("log_v", 0)] [("log_v", 7)]
    ⟨false, 0, fun q => if q = "log_v" then some 1 else none⟩
    ⟨true, 1, setFlag (fun q => if q = "log_v" then some 1 else none) "log_v" 0⟩
    rfl

/-- Embedding of `Module.load(path)` as observable at this layer: a path
ending in ".pth" goes through the external tensor library, whose
availability `hasTorch` records — when the import fails, a RuntimeError is
raised immediately, before any parameter loading; every other path goes
through the native pickle loader.  `fileParams` stands for the checkpoint
contents the respective loader would hand to `load_parameters`. -/
def Module.load (m : Module) (hasTorch : Bool) (fileParams : List (String × Data))
    (store : VarStore) (path : String) : Except String (VarStore × Nat × List String) :=
  if ".pth".data.isSuffixOf path.data then
    if hasTorch then Module.load_parameters m fileParams store
    else .error "pytorch need to be installed when load pth format."
  else Module.load_parameters m fileParams store

/-- C8: for every path with the interop checkpoint extension ".pth",
`Module.load` without the external tensor library raises the configuration
error immediately to the caller — the RuntimeError is the result, whatever
the checkpoint contents and current parameter data, and `load_parameters`
is never reached. -/
theorem load_pth_without_torch (m : Module) (fileParams : List (String × Data))
    (store : VarStore) (path : String)
    (hpth : ".pth".data.isSuffixOf path.data = true) :
    Module.load m false fileParams store path
      = .error "pytorch need to be installed when load pth format." := by
  simp [Module.load, hpth]

/-- Witness for C8 at the path "model.pth". -/
theorem load_pth_without_torch_witness :
    Module.load (Module.mk none .nil) false [] (fun _ => []) "model.pth"
      = .error "pytorch need to be installed when load pth format." :=
  load_pth_without_torch (Module.mk none .nil) [] (fun _ => []) "model.pth" (by decide)

/-- Exit bookkeeping installed by `ExitHooks.hook`: the recorded explicit
exit code and the recorded uncaught exception (both initially None). -/
structure Hooks where
  exit_code : Option Int
  exception : Option String
deriving DecidableEq

/-- Embedding of `ExitHooks.exit`: records the exit code (`sys.exit()` with
no argument records the default 0) before delegating to the original
`sys.exit`. -/
def Hooks.exit (h : Hooks) (code : Int) : Hooks := ⟨some code, h.exception⟩

/-- Embedding of `ExitHooks.exc_handler`: records the uncaught exception
(then prints the traceback). -/
def Hooks.exc_handler (h : Hooks) (e : String) : Hooks := ⟨h.exit_code, some e⟩

/-- Hook state as installed at import time. -/
def Hooks.init : Hooks := ⟨none, none⟩

/-- Embedding of `jittor_exit`: whether the registered atexit hook performs
`core.sync_all(True)`, the blocking synchronization of all pending engine
work. -/
def jittor_exit (h : Hooks) : Bool :=
  if h.exit_code ≠ none then false
  else if h.exception ≠ none then false
  else true

/-- C9: at interpreter shutdown the registered exit hook performs the
blocking synchronization if and only if no explicit exit code and no
uncaught exception were recorded; recording either one (through the hooked
`sys.exit` — including the default code 0 — or the exception hook)
suppresses it, and the state installed at import time synchronizes. -/
theorem jittor_exit_syncs_iff (h : Hooks) :
    (jittor_exit h = true ↔ h.exit_code = none ∧ h.exception = none)
    ∧ (∀ c, jittor_exit (Hooks.exit h c) = false)
    ∧ (∀ e, jittor_exit (Hooks.exc_handler h e) = false)
    ∧ jittor_exit Hooks.init = true := by
  refine ⟨?_, ?_, ?_, rfl⟩
  · rcases h with ⟨ec, ex⟩
    rcases ec with _ | c <;> rcases ex with _ | e <;> simp [jittor_exit]
  · intro c
    simp [jittor_exit, Hooks.exit]
  · intro e
    rcases h with ⟨ec, ex⟩
    rcases ec with _ | c <;> simp [jittor_exit, Hooks.exc_handler]

/-- Normalization of a dimension argument of `flatten`: a negative index
has `len(in_shape)` added, a non-negative one is kept. -/
def normDim (len : Nat) (d : Int) : Int := if d < 0 then len + d else d

/-- Python list indexing `l[i]` for an integer index: in range directly, a
negative index wraps once, anything else raises IndexError (`none`). -/
def pyIndex (l : List Nat) (i : Int) : Option Nat :=
  if 0 ≤ i ∧ i < (l.length : Int) then l[i.toNat]?
  else if -(l.length : Int) ≤ i ∧ i < 0 then l[(i + l.length).toNat]?
  else none

/-- Fuel-driven integer range: the indices `range(a, b)` iterates. -/
def intRangeAux : Nat → Int → List Int
  | 0, _ => []
  | n + 1, a => a :: intRangeAux n (a + 1)

/-- Embedding of `range(a, b)`. -/
def intRange (a b : Int) : List Int := intRangeAux (b - a).toNat a

/-- Embedding of `flatten(input, start_dim, end_dim)` on the input shape:
normalizes negative dims by adding `len(in_shape)`, asserts
`end_dim > start_dim` (`none` on failure), then builds the output shape
with the three Python loops, each indexing `in_shape`; an indexing failure
is also `none`. -/
def flatten (in_shape : List Nat) (start_dim end_dim : Int) : Option (List Nat) :=
  if normDim in_shape.length end_dim > normDim in_shape.length start_dim then
    match (intRange 0 (normDim in_shape.length start_dim)).mapM (pyIndex in_shape),
        (intRange (normDim in_shape.length start_dim)
          (normDim in_shape.length end_dim + 1)).mapM (pyIndex in_shape),
        (intRange (normDim in_shape.length end_dim + 1)
          (in_shape.length : Int)).mapM (pyIndex in_shape) with
    | some pre, some mid, some post =>
        some (pre ++ [mid.foldl (fun x y => x * y) 1] ++ post)
    | _, _, _ => none
  else none

theorem mapM_pyIndex_range (l : List Nat) :
    ∀ (cnt : Nat) (a : Int), 0 ≤ a → a + cnt ≤ (l.length : Int) →
    (intRangeAux cnt a).mapM (pyIndex l) = some ((l.drop a.toNat).take cnt)
  | 0, a, h0, hle => rfl
  | cnt + 1, a, h0, hle => by
    have hlt : a.toNat < l.length := by omega
    have hidx : pyIndex l a = some l[a.toNat] := by
      simp only [pyIndex]
      rw [if_pos ⟨h0, by omega⟩]
      exact List.getElem?_eq_getElem hlt
    rw [intRangeAux, List.mapM_cons, hidx]
    rw [mapM_pyIndex_range l cnt (a + 1) (by omega) (by omega)]
    have hsucc : (a + 1).toNat = a.toNat + 1 := by omega
    have hgoal : (l.drop a.toNat).take (cnt + 1)
        = l[a.toNat] :: (l.drop (a.toNat + 1)).take cnt := by
      rw [List.drop_eq_getElem_cons hlt, List.take_succ_cons]
    rw [hsucc, hgoal]
    simp

/-- C10: `flatten(input, start_dim, end_dim)` first normalizes negative
dims by adding the number of dimensions, then asserts
`end_dim > start_dim` — so flattening to a single dimension span of size
one, including the default call on a 1-D tensor, fails; when that
precondition holds (and the normalized dims are in range), the result
shape is: dimensions before `start_dim`, then the product of the
dimensions from `start_dim` through `end_dim`, then the dimensions after
`end_dim`. -/
theorem flatten_spec (in_shape : List Nat) (start_dim end_dim : Int) :
    (¬ normDim in_shape.length end_dim > normDim in_shape.length start_dim →
        flatten in_shape start_dim end_dim = none)
    ∧ (normDim in_shape.length end_dim > normDim in_shape.length start_dim →
        0 ≤ normDim in_shape.length start_dim →
        normDim in_shape.length end_dim < (in_shape.length : Int) →
        flatten in_shape start_dim end_dim
          = some (in_shape.take (normDim in_shape.length start_dim).toNat
              ++ [((in_shape.drop (normDim in_shape.length start_dim).toNat).take
                    (normDim in_shape.length end_dim + 1
                      - normDim in_shape.length start_dim).toNat).foldl
                    (fun x y => x * y) 1]
              ++ in_shape.drop (normDim in_shape.length end_dim + 1).toNat))
    ∧ flatten [5] 0 (-1) = none := by
  refine ⟨?_, ?_, by decide⟩
  · intro h
    simp only [flatten]
    rw [if_neg h]
  · intro hgt hs0 hen
    have h1 : (intRange 0 (normDim in_shape.length start_dim)).mapM (pyIndex in_shape)
        = some (in_shape.take (normDim in_shape.length start_dim).toNat) := by
      have := mapM_pyIndex_range in_shape (normDim in_shape.length start_dim).toNat 0
        le_rfl (by omega)
      simp only [Int.toNat_zero, List.drop_zero] at this
      rw [intRange]
      simpa using this
    have h2 : (intRange (normDim in_shape.length start_dim)
          (normDim in_shape.length end_dim + 1)).mapM (pyIndex in_shape)
        = some ((in_shape.drop (normDim in_shape.length start_dim).toNat).take
            (normDim in_shape.length end_dim + 1
              - normDim in_shape.length start_dim).toNat) := by
      have := mapM_pyIndex_range in_shape
        (normDim in_shape.length end_dim + 1 - normDim in_shape.length start_dim).toNat
        (normDim in_shape.length start_dim) hs0 (by omega)
      rw [intRange]
      exact this
    have h3 : (intRange (normDim in_shape.length end_dim + 1)
          ((in_shape.length : Int))).mapM (pyIndex in_shape)
        = some (in_shape.drop (normDim in_shape.length end_dim + 1).toNat) := by
      have := mapM_pyIndex_range in_shape
        ((in_shape.length : Int) - (normDim in_shape.length end_dim + 1)).toNat
        (normDim in_shape.length end_dim + 1) (by omega) (by omega)
      rw [intRange]
      rw [this]
      congr 1
      apply List.take_of_length_le
      rw [List.length_drop]
      omega
    simp only [flatten]
    rw [if_pos hgt, h1, h2, h3]

/-- Witness for C10: flattening the last two dimensions of a 2x3x4 shape
gives 2x12. -/
theorem flatten_spec_witness :
    flatten [2, 3, 4] 1 (-1) = some [2, 12] :=
  (flatten_spec [2, 3, 4] 1 (-1)).2.1 (by decide) (by decide) (by decide)

end Jittor
